import Mathlib

/-!
Verification of the spec-gen repository: a shallow embedding in Lean 4 of the
components the specification and claims talk about, together with theorems
settling each claim.

Sources embedded from the repository:
  - `src/src/utils/logger.ts` (the `Logger.log` gating logic),
  - the project-detector service (`detectProjectType`, `MANIFEST_MAP`),
  - the gitignore-manager service (`isInGitignore`, `addToGitignore`).

The core Dependency Graph & Domain Clustering Engine (GraphBuilder,
MetricsEngine, CycleDetector, CommunityPartitioner, SignificanceScorer,
ContextBudgeter) is exported by `src/core/analyzer/index.ts` but its
implementation files are not part of the source snapshot; those components are
modelled from the specification text, as indicated on each definition.

JavaScript strings are embedded as `List Char`; machine numbers that matter
are `Nat` and `ℚ` (token counts, scores, PageRank values are exact here).
-/

set_option allowUnsafeReducibility true

attribute [local semireducible] Rat.mul Rat.add Rat.sub Rat.inv

namespace SpecGen

/-! ## Character-list string primitives (JS string operations) -/

/-- JS `String.prototype.split(sep)` for a one-character separator, on a
string represented as a `List Char`: splits into the (possibly empty)
segments between separator characters. -/
def splitOnChar (sep : Char) : List Char → List (List Char)
  | [] => [[]]
  | c :: cs =>
    match splitOnChar sep cs with
    | [] => [[]]
    | l :: ls => if c = sep then [] :: l :: ls else (c :: l) :: ls

/-- JS `String.prototype.split('\n')`, as used by the gitignore manager. -/
def splitOnNl (s : List Char) : List (List Char) := splitOnChar '\n' s

/-- Whitespace test backing the embedding of JS `String.prototype.trim`:
the ECMA-262 WhiteSpace and LineTerminator characters — tab, LF, VT, FF,
CR, space, NBSP, U+1680, the U+2000..U+200A spaces, LS, PS, U+202F,
U+205F, U+3000 and the U+FEFF byte-order mark. -/
def isWs (c : Char) : Bool :=
  c = ' ' || c = '\t' || c = '\n' || c = '\r'
    || c = '\x0b' || c = '\x0c' || c = '\u00A0' || c = '\u1680'
    || ('\u2000' ≤ c && c ≤ '\u200A')
    || c = '\u2028' || c = '\u2029' || c = '\u202F' || c = '\u205F'
    || c = '\u3000' || c = '\uFEFF'

/-- JS `String.prototype.trim`: drop whitespace from both ends. -/
def trimL (s : List Char) : List Char :=
  ((s.dropWhile isWs).reverse.dropWhile isWs).reverse

/-- JS `str.replace(/^\/+|\/+$/g, '')`: strip all leading and trailing
slashes (the normalization used by the gitignore manager). -/
def stripSlashes (s : List Char) : List Char :=
  (((s.dropWhile (· = '/')).reverse.dropWhile (· = '/'))).reverse

/-! ## gitignore-manager (embedded from the source in
`src/src/core/services/config-manager.test.ts`, second file section) -/

/-- Embeds `isInGitignore(rootPath, entry)`.  The file system is abstracted to
the current `.gitignore` content: `none` when the file does not exist.  Note
the JS guard `if (!content) return false` also fires on the empty string. -/
def isInGitignore (content : Option (List Char)) (entry : List Char) : Bool :=
  match content with
  | none => false
  | some c =>
    if c = [] then false
    else
      let normalizedEntry := stripSlashes entry
      (splitOnNl c).any fun line =>
        let trimmed := trimL line
        if trimmed.head? = some '#' || trimmed = [] then false
        else stripSlashes trimmed = normalizedEntry

/-- Embeds `addToGitignore(rootPath, entry, comment?)`: returns the boolean
result together with the `.gitignore` content after the call (unchanged when
the entry is already present, since no write happens on that path). -/
def addToGitignore (content : Option (List Char)) (entry : List Char)
    (comment : Option (List Char)) : Bool × Option (List Char) :=
  if isInGitignore content entry then (false, content)
  else
    let c0 := content.getD []
    let c1 := if c0 ≠ [] ∧ c0.getLast? ≠ some '\n' then c0 ++ ['\n'] else c0
    let c2 :=
      match comment with
      | some cm =>
        if cm ≠ [] then c1 ++ ('\n' :: '#' :: ' ' :: cm) ++ ['\n']
        else if c1 ≠ [] then c1 ++ ['\n'] else c1
      | none => if c1 ≠ [] then c1 ++ ['\n'] else c1
    (true, some (c2 ++ entry ++ ['\n']))

/-! ## Logger (embedded from `src/src/utils/logger.ts`) -/

/-- The semantic log levels of `logger.ts`. -/
inductive LogLevel where
  | discovery | analysis | inference | success | warning | error | debug
deriving DecidableEq, Repr

/-- The option record of `logger.ts` (`LoggerOptions`). -/
structure LoggerOptions where
  quiet : Bool
  verbose : Bool
  noColor : Bool
  timestamps : Bool
deriving DecidableEq, Repr

/-- Output channels a log call can reach. -/
inductive LogStream where
  | stdout | stderr
deriving DecidableEq, Repr

/-- Embeds the gating logic of `Logger.log` (logger.ts lines 103-131): quiet
mode suppresses everything but errors, debug needs verbose, errors go to
`console.error` and everything else to `console.log`.  Returns `none` when
the call produces no console output. -/
def Logger.logOutput (opts : LoggerOptions) (level : LogLevel) : Option LogStream :=
  if opts.quiet ∧ level ≠ .error then none
  else if level = .debug ∧ ¬ opts.verbose then none
  else if level = .error then some .stderr
  else some .stdout

/-! ## Project detector (embedded from the project-detector service source) -/

/-- The `ProjectType` union of `types/index.ts` as used by the detector. -/
inductive ProjectType where
  | nodejs | python | rust | go | java | ruby | php | unknown
deriving DecidableEq, Repr

/-- One row of `MANIFEST_MAP`. -/
structure ManifestEntry where
  file : String
  type : ProjectType
  priority : Nat
deriving DecidableEq, Repr

/-- Embeds the `MANIFEST_MAP` constant: manifest file to project type
mapping, in declaration order. -/
def MANIFEST_MAP : List ManifestEntry :=
  [ ⟨"package.json", .nodejs, 1⟩,
    ⟨"pyproject.toml", .python, 1⟩,
    ⟨"setup.py", .python, 2⟩,
    ⟨"requirements.txt", .python, 3⟩,
    ⟨"Cargo.toml", .rust, 1⟩,
    ⟨"go.mod", .go, 1⟩,
    ⟨"pom.xml", .java, 1⟩,
    ⟨"build.gradle", .java, 2⟩,
    ⟨"build.gradle.kts", .java, 2⟩,
    ⟨"Gemfile", .ruby, 1⟩,
    ⟨"composer.json", .php, 1⟩ ]

/-- The confidence levels of `ProjectDetectionResult`. -/
inductive Confidence where
  | high | medium | low
deriving DecidableEq, Repr

/-- Embeds `ProjectDetectionResult`. -/
structure ProjectDetectionResult where
  projectType : ProjectType
  manifestFile : Option String
  hasGit : Bool
  confidence : Confidence
deriving DecidableEq, Repr

/-- Stable insert for the embedding of the JS `Array.prototype.sort` call
`detectedManifests.sort((a, b) => a.priority - b.priority)`: an element is
placed after every already-sorted element of smaller or equal priority, which
is exactly the stable behaviour of the JS sort. -/
def insertByPriority (m : ManifestEntry) : List ManifestEntry → List ManifestEntry
  | [] => [m]
  | x :: xs =>
    if m.priority ≤ x.priority then m :: x :: xs
    else x :: insertByPriority m xs

/-- Stable insertion sort by ascending priority (ties keep input order). -/
def sortByPriority : List ManifestEntry → List ManifestEntry
  | [] => []
  | x :: xs => insertByPriority x (sortByPriority xs)

/-- Embeds `detectProjectType(rootPath)`.  The file system is abstracted to
the `fileExists` predicate on file names at the root; `hasGit` is the result
of `detectGitRepository`, passed through unchanged. -/
def detectProjectType (fileExists : String → Bool) (hasGit : Bool) :
    ProjectDetectionResult :=
  let detected := MANIFEST_MAP.filter fun m => fileExists m.file
  match sortByPriority detected with
  | [] => ⟨.unknown, none, hasGit, .low⟩
  | primary :: _ =>
    let uniqueTypes := (detected.map (·.type)).dedup
    let confidence : Confidence :=
      if detected.length > 1 ∧ uniqueTypes.length > 1 then .medium else .high
    ⟨primary.type, some primary.file, hasGit, confidence⟩

/-- Specification-side reading of the tie-break rule: the first element of the
list (declaration order) among those of minimal priority.  Used to state that
the stable sort's head is exactly this element. -/
def firstMinPriority : List ManifestEntry → Option ManifestEntry
  | [] => none
  | x :: xs =>
    match firstMinPriority xs with
    | none => some x
    | some y => if y.priority < x.priority then some y else some x

/-! ## Core engine data model (modelled from the spec)

The implementation files of the Dependency Graph & Domain Clustering Engine
are exported by `src/core/analyzer/index.ts` but absent from the source
snapshot; every definition below is modelled from the specification text and
`docs/ALGORITHMS.md`. -/

/-- Modelled from the spec: one discovered file with the structural signal
counts supplied by the external content scanner (spec section 3, FileNode)
and the precomputed token counts supplied by the external tokenizer (whole
file and truncated form). -/
structure FileInfo where
  path : String
  classCount : Nat
  interfaceCount : Nat
  functionCount : Nat
  tokens : Nat
  truncatedTokens : Nat
deriving DecidableEq, Repr

/-- Modelled from the spec: a directed import edge (spec section 3, Edge). -/
structure ImportEdge where
  source : String
  target : String
  weight : Nat
deriving DecidableEq, Repr

/-- Modelled from the spec: the immutable graph GraphBuilder produces — the
discovered nodes, the retained edges, and the count of dropped edges whose
endpoints were not both discovered files (spec sections 3 and 4.1). -/
structure Graph where
  nodes : List String
  edges : List ImportEdge
  droppedEdges : Nat
deriving DecidableEq, Repr

/-- Modelled from the spec: GraphBuilder (spec section 4.1) keeps exactly the
edges with both endpoints in the discovered file set, never materializes
phantom nodes, and reports the number of dropped edges. -/
def buildGraph (files : List String) (edges : List ImportEdge) : Graph :=
  let keep : ImportEdge → Bool := fun e =>
    files.contains e.source && files.contains e.target
  ⟨files, edges.filter keep, (edges.filter fun e => !(keep e)).length⟩

/-- Forward adjacency: the distinct targets of retained edges out of `v`. -/
def Graph.adj (g : Graph) (v : String) : List String :=
  ((g.edges.filter fun e => e.source = v).map (·.target)).dedup

/-- Reverse adjacency: the distinct sources of retained edges into `v`. -/
def Graph.radj (g : Graph) (v : String) : List String :=
  ((g.edges.filter fun e => e.target = v).map (·.source)).dedup

/-- Out-degree: size of the forward adjacency list (spec section 4.2). -/
def Graph.outDeg (g : Graph) (v : String) : Nat := (g.adj v).length

/-- In-degree: size of the reverse adjacency list (spec section 4.2). -/
def Graph.inDeg (g : Graph) (v : String) : Nat := (g.radj v).length

/-! ## CycleDetector (modelled from the spec, section 4.3) -/

/-- Fuel-bounded reachability: `reachesN g k u v` holds when some directed
walk of length at most `k` joins `u` to `v`. -/
def reachesN (g : Graph) : Nat → String → String → Bool
  | 0, u, v => u == v
  | k + 1, u, v => u == v || (g.adj u).any fun w => reachesN g k w v

/-- Reachability at the fuel the detector uses: the number of nodes bounds
the length of any simple walk. -/
def reaches (g : Graph) (u v : String) : Bool :=
  reachesN g g.nodes.length u v

/-- Mutual reachability: `u` and `v` lie on a common directed cycle. -/
def mutualReach (g : Graph) (u v : String) : Bool :=
  reaches g u v && reaches g v u

/-- The strongly-connected component of `v`, members in discovery order. -/
def sccOf (g : Graph) (v : String) : List String :=
  g.nodes.filter fun w => mutualReach g v w

/-- An explicit self-edge among the retained edges. -/
def selfEdge (g : Graph) (v : String) : Bool := (g.adj v).contains v

/-- One representative per strongly-connected component, chosen in discovery
order of `g.nodes`. -/
def sccReps (g : Graph) : List String :=
  g.nodes.foldl
    (fun acc v => if acc.any (fun r => mutualReach g r v) then acc else acc ++ [v]) []

/-- Modelled from the spec: CycleDetector (spec section 4.3) reports each SCC
of size > 1 as a cycle group, preserving discovery order of members, plus a
size-1 group only for a node with an explicit self-edge. -/
def cycleGroups (g : Graph) : List (List String) :=
  ((sccReps g).map (sccOf g)).filter fun s =>
    decide (s.length > 1) || (decide (s.length = 1) && s.any (selfEdge g))

/-! ## MetricsEngine iterative importance (modelled from the spec, 4.2) -/

/-- Importance values as an association list over the node list (exact ℚ). -/
abbrev ImpMap := List (String × ℚ)

/-- Look up a node's current importance (0 when absent). -/
def lookupImp (m : ImpMap) (v : String) : ℚ :=
  ((m.find? fun p => p.1 == v).map (·.2)).getD 0

/-- The damping factor d = 0.85. -/
def damping : ℚ := 17 / 20

/-- Modelled from the spec: initial importance 1/N for every node. -/
def initImp (g : Graph) : ImpMap :=
  g.nodes.map fun v => (v, 1 / (g.nodes.length : ℚ))

/-- Total mass sitting on dangling nodes (out-degree 0). -/
def danglingMass (g : Graph) (m : ImpMap) : ℚ :=
  ((g.nodes.filter fun v => g.outDeg v == 0).map fun v => lookupImp m v).sum

/-- Modelled from the spec: one iteration of
`importance(v) = (1-d) + d * (Σ importance(u)/outDegree(u) + dangling/N)`,
with the mass of out-degree-0 nodes redistributed uniformly over all nodes. -/
def pageRankStep (g : Graph) (m : ImpMap) : ImpMap :=
  let dm := danglingMass g m
  g.nodes.map fun v =>
    (v, (1 - damping) + damping *
      (((g.radj v).map fun u => lookupImp m u / (g.outDeg u : ℚ)).sum
        + dm / (g.nodes.length : ℚ)))

/-- Maximum of two rationals, by an executable comparison. -/
def qmax (a b : ℚ) : ℚ := if a ≤ b then b else a

/-- Minimum of two rationals, by an executable comparison. -/
def qmin (a b : ℚ) : ℚ := if a ≤ b then a else b

/-- Absolute value of a rational, by an executable comparison. -/
def qabs (a : ℚ) : ℚ := if a < 0 then -a else a

/-- Maximum absolute per-node score change between two iterations. -/
def prDelta (g : Graph) (mNew mOld : ImpMap) : ℚ :=
  (g.nodes.map fun v => qabs (lookupImp mNew v - lookupImp mOld v)).foldr qmax 0

/-- Modelled from the spec: the iteration loop — stop when the score change
falls below epsilon or when the fuel (iteration cap) runs out, returning the
values reached in either case (never failing). -/
def pageRankLoop (g : Graph) (eps : ℚ) : Nat → ImpMap → ImpMap
  | 0, m => m
  | k + 1, m =>
    let next := pageRankStep g m
    if prDelta g next m < eps then next else pageRankLoop g eps k next

/-- Modelled from the spec: MetricsEngine's iterative importance, iteration
cap 20, starting from the uniform 1/N assignment. -/
def pageRank (g : Graph) (eps : ℚ) : ImpMap :=
  pageRankLoop g eps 20 (initImp g)

/-! ## CommunityPartitioner (modelled from the spec, section 4.4) -/

/-- Directory part of a path: everything before the final slash. -/
def dirOf (p : String) : List Char :=
  ((p.toList.reverse.dropWhile (· ≠ '/')).drop 1).reverse

/-- Base name of a path: everything after the final slash. -/
def baseName (p : String) : List Char :=
  (p.toList.reverse.takeWhile (· ≠ '/')).reverse

/-- Modelled from the spec: the shared-naming-pattern heuristic, read as the
penultimate dot-segment of the file name (the `service` of
`user.service.ts`), defined when the name has at least three dot-segments. -/
def namePattern (p : String) : Option (List Char) :=
  let segs := splitOnChar '.' (baseName p)
  if 3 ≤ segs.length then segs.reverse.tail.head? else none

/-- Summed weight of retained edges from `u` to `v`. -/
def edgeW (g : Graph) (u v : String) : ℚ :=
  ((g.edges.filter fun e => e.source == u && e.target == v).map
    fun e => (e.weight : ℚ)).sum

/-- Modelled from the spec: symmetric affinity weight between two files —
edge weight in both directions plus the same-directory bonus, the
shared-naming-pattern bonus and the bidirectional-edge bonus (the three
code-specific bonuses of spec section 4.4; the bonus magnitudes are model
constants, the spec fixes only their presence). -/
def affinity (g : Graph) (u v : String) : ℚ :=
  edgeW g u v + edgeW g v u
    + (if dirOf u = dirOf v then 1/2 else 0)
    + (if namePattern u ≠ none ∧ namePattern u = namePattern v then 1/2 else 0)
    + (if 0 < edgeW g u v ∧ 0 < edgeW g v u then 1 else 0)

/-- Weighted degree of a node under the affinity weights. -/
def affDeg (g : Graph) (v : String) : ℚ :=
  ((g.nodes.filter (· ≠ v)).map fun u => affinity g v u).sum

/-- Total affinity weight (the 2m of the modularity formula). -/
def totalW (g : Graph) : ℚ :=
  (g.nodes.map fun v => affDeg g v).sum

/-- Modularity gain of placing `v` in community `c` under assignment `σ`:
affinity of `v` to the members of `c` minus the expected weight
`k_v * Σ_{u ∈ c} k_u / 2m` (the standard modularity-delta formula over the
bonus-augmented weights). -/
def moveGain (g : Graph) (σ : String → Nat) (v : String) (c : Nat) : ℚ :=
  let m2 := totalW g
  let inside := g.nodes.filter fun u => u ≠ v && σ u == c
  ((inside.map fun u => affinity g v u).sum)
    - (if m2 = 0 then 0
       else affDeg g v * ((inside.map fun u => affDeg g u).sum) / m2)

/-- Best community for `v` among the communities of its neighbours and its
own, requiring a strict gain improvement to move (staying put on ties). -/
def bestCommunity (g : Graph) (σ : String → Nat) (v : String) : Nat :=
  let cands := ((g.adj v ++ g.radj v).map σ).dedup
  cands.foldl
    (fun best c => if moveGain g σ v best < moveGain g σ v c then c else best)
    (σ v)

/-- One local-move pass over the nodes in the fixed node order. -/
def localPass (g : Graph) (σ : String → Nat) : String → Nat :=
  g.nodes.foldl
    (fun τ v =>
      let c := bestCommunity g τ v
      fun w => if w = v then c else τ w)
    σ

/-- Fuel-bounded repetition of local-move passes until the assignment of the
node list stops changing. -/
def localLoop (g : Graph) : Nat → (String → Nat) → (String → Nat)
  | 0, σ => σ
  | k + 1, σ =>
    let τ := localPass g σ
    if g.nodes.map τ = g.nodes.map σ then σ else localLoop g k τ

/-- Modelled from the spec: CommunityPartitioner (spec section 4.4).
Louvain-style optimization is modelled as fuel-bounded local-move passes over
a total community-id assignment that starts from the singleton partition;
the aggregation phase only collapses whole communities into super-nodes and
maps them back, so the final file-level partition is the grouping of the
final total assignment, which the model returns directly. -/
def partitionAssign (g : Graph) : String → Nat :=
  localLoop g g.nodes.length fun v => g.nodes.indexOf v

/-- The communities induced by an assignment: one community per distinct
assigned id (in first-appearance order), members listed in node order. -/
def communitiesOf (g : Graph) (σ : String → Nat) : List (Nat × List String) :=
  (g.nodes.map σ).dedup.map fun c => (c, g.nodes.filter fun v => σ v == c)

/-- The final communities of the partitioner. -/
def communities (g : Graph) : List (Nat × List String) :=
  communitiesOf g (partitionAssign g)

/-! ## SignificanceScorer (modelled from the spec, section 4.5) -/

/-- Prefix test on character lists. -/
def isPrefixL : List Char → List Char → Bool
  | [], _ => true
  | _ :: _, [] => false
  | a :: as, b :: bs => a == b && isPrefixL as bs

/-- JS `String.prototype.includes`: substring containment. -/
def containsSub (needle hay : List Char) : Bool :=
  hay.tails.any fun t => isPrefixL needle t

/-- Modelled from the spec: the ordered name-keyword score table of spec
section 4.5 and `docs/ALGORITHMS.md` section 1. -/
def nameRules : List (List String × Nat) :=
  [ (["schema", "model", "entity"], 30),
    (["service", "controller", "handler"], 28),
    (["api", "route", "endpoint"], 25),
    (["store", "reducer", "action"], 22),
    (["util", "helper", "constant"], 10),
    (["test", "spec", "mock"], 5),
    (["index"], 15) ]

/-- Modelled from the spec: name score — highest score among the keyword
categories matching the file name; 0 when nothing matches. -/
def nameScore (fileName : List Char) : Nat :=
  nameRules.foldl
    (fun best r =>
      if r.1.any (fun k => containsSub k.toList fileName) && best < r.2
      then r.2 else best)
    0

/-- Modelled from the spec: the ordered directory-pattern score table of
spec section 4.5 and `docs/ALGORITHMS.md` section 1. -/
def pathRules : List (List String × Nat) :=
  [ (["models", "entities"], 25),
    (["services", "core"], 23),
    (["api", "routes"], 20),
    (["components"], 18),
    (["lib", "packages"], 15),
    (["test", "__tests__"], 5) ]

/-- Modelled from the spec: path score — highest score among the directory
patterns matching the directory part of the path; 0 when nothing matches. -/
def pathScore (dir : List Char) : Nat :=
  pathRules.foldl
    (fun best r =>
      if r.1.any (fun k => containsSub k.toList dir) && best < r.2
      then r.2 else best)
    0

/-- Modelled from the spec: structure score — classes +5 each capped at 15,
interface/type exports +3 each capped at 12, function exports +2 each capped
at 10, combined total capped at 25. -/
def structureScore (f : FileInfo) : Nat :=
  min 25 (min 15 (5 * f.classCount) + min 12 (3 * f.interfaceCount)
    + min 10 (2 * f.functionCount))

/-- Modelled from the spec: connectivity score — a monotone function of the
normalized in-degree and normalized importance, capped at 20. -/
def connectivityScore (g : Graph) (imp : ImpMap) (v : String) : ℚ :=
  let maxIn : ℚ := (g.nodes.map fun u => (g.inDeg u : ℚ)).foldr qmax 0
  let maxImp : ℚ := (g.nodes.map fun u => lookupImp imp u).foldr qmax 0
  qmin 20 (10 * (if maxIn = 0 then 0 else (g.inDeg v : ℚ) / maxIn)
    + 10 * (if maxImp = 0 then 0 else lookupImp imp v / maxImp))

/-- Modelled from the spec: the per-file significance record — the four
bounded sub-scores and their total. -/
structure SignificanceScore where
  file : String
  nameS : Nat
  pathS : Nat
  structS : Nat
  connS : ℚ
  total : ℚ
deriving DecidableEq, Repr

/-- Modelled from the spec: SignificanceScorer combines the four sub-scores
into the per-file record. -/
def scoreFile (g : Graph) (imp : ImpMap) (f : FileInfo) : SignificanceScore :=
  let n := nameScore (baseName f.path)
  let p := pathScore (dirOf f.path)
  let s := structureScore f
  let c := connectivityScore g imp f.path
  ⟨f.path, n, p, s, c, (n : ℚ) + (p : ℚ) + (s : ℚ) + c⟩

/-- Rank order: higher total first, ties broken by path lexical order. -/
def scoreBefore (a b : SignificanceScore) : Bool :=
  decide (b.total < a.total) || (decide (a.total = b.total) && decide (a.file ≤ b.file))

/-- Stable insert for the rank order. -/
def insertScore (a : SignificanceScore) :
    List SignificanceScore → List SignificanceScore
  | [] => [a]
  | b :: bs => if scoreBefore a b then a :: b :: bs else b :: insertScore a bs

/-- Stable insertion sort by the rank order. -/
def sortScores : List SignificanceScore → List SignificanceScore
  | [] => []
  | a :: as => insertScore a (sortScores as)

/-- Modelled from the spec: dense rank over all scored files — files sorted
by the rank order, a file's rank is the position of its total among the
distinct totals in descending order, starting from 1. -/
def rankScores (l : List SignificanceScore) : List (SignificanceScore × Nat) :=
  let sorted := sortScores l
  let totals := (sorted.map (·.total)).dedup
  sorted.map fun s => (s, totals.indexOf s.total + 1)

/-! ## ContextBudgeter (modelled from the spec, section 4.6) -/

/-- The three budget decisions of a BudgetSelection entry. -/
inductive Decision where
  | includedWhole | truncated | excluded
deriving DecidableEq, Repr

/-- Modelled from the spec: one budget decision — include whole when it fits
the remaining budget, otherwise include truncated when the truncated form
fits, otherwise exclude; returns the decision with the new running total. -/
def budgetStep (budget acc : Nat) (f : FileInfo) : Decision × Nat :=
  if acc + f.tokens ≤ budget then (.includedWhole, acc + f.tokens)
  else if acc + f.truncatedTokens ≤ budget then (.truncated, acc + f.truncatedTokens)
  else (.excluded, acc)

/-- Modelled from the spec: the greedy walk over the ranked files, recording
every file's decision together with the running total after it; it never
revisits an earlier file. -/
def selectFiles (budget : Nat) : List FileInfo → Nat → List (FileInfo × Decision × Nat)
  | [], _ => []
  | f :: fs, acc =>
    let d := budgetStep budget acc f
    (f, d.1, d.2) :: selectFiles budget fs d.2

/-- Modelled from the spec: ContextBudgeter run from an empty running total
over the files in descending significance order. -/
def contextBudgeter (budget : Nat) (files : List FileInfo) :
    List (FileInfo × Decision × Nat) :=
  selectFiles budget files 0

/-! ## The full pipeline (modelled from the spec, sections 2 and 6) -/

/-- Modelled from the spec: the boundary inputs of the core — file set with
signal and token counts, edge list, token budget. -/
structure AnalysisInput where
  files : List FileInfo
  edges : List ImportEdge
  tokenBudget : Nat
deriving DecidableEq, Repr

/-- Modelled from the spec: the AnalysisResult value object — graph,
per-node metrics (in-degree, out-degree, importance), cycle groups,
community partition, significance scores with ranks, budget selection. -/
structure AnalysisResult where
  graph : Graph
  metrics : List (String × Nat × Nat × ℚ)
  cycles : List (List String)
  communityList : List (Nat × List String)
  scores : List (SignificanceScore × Nat)
  selection : List (FileInfo × Decision × Nat)
deriving DecidableEq, Repr

/-- Modelled from the spec: the small epsilon of the importance iteration
(its exact value is a model constant; the spec fixes only its existence). -/
def defaultEps : ℚ := 1 / 10000

/-- Modelled from the spec: the full analysis pipeline — edges to graph to
metrics, cycles, communities, then scores, then the budgeted selection, as a
pure function of the inputs. -/
def analyze (i : AnalysisInput) : AnalysisResult :=
  let g := buildGraph (i.files.map (·.path)) i.edges
  let imp := pageRank g defaultEps
  let ranked := rankScores (i.files.map (scoreFile g imp))
  let orderedFiles := ranked.filterMap fun rs =>
    i.files.find? fun f => f.path == rs.1.file
  { graph := g
    metrics := g.nodes.map fun v => (v, g.inDeg v, g.outDeg v, lookupImp imp v)
    cycles := cycleGroups g
    communityList := communities g
    scores := ranked
    selection := contextBudgeter i.tokenBudget orderedFiles }

/-! ## Shared helper lemmas -/

/-- Splitting a list by a predicate and its negation preserves the length. -/
theorem length_filter_not_add_length_filter {α : Type} (p : α → Bool) (l : List α) :
    (l.filter fun a => !(p a)).length + (l.filter p).length = l.length := by
  induction l with
  | nil => rfl
  | cons a l ih => cases h : p a <;> simp [List.filter_cons, h, ← ih] <;> omega

/-! ## C10: Logger quiet/verbose gating -/

/-- C10: with `quiet = true` the discovery, analysis, inference, success,
warning and debug methods produce no console output and only `error`
prints (to `console.error`); with `quiet = false`, debug messages print
exactly when `verbose = true`. -/
theorem logger_quiet_verbose_gating (opts : LoggerOptions) :
    (opts.quiet = true →
      Logger.logOutput opts .discovery = none ∧
      Logger.logOutput opts .analysis = none ∧
      Logger.logOutput opts .inference = none ∧
      Logger.logOutput opts .success = none ∧
      Logger.logOutput opts .warning = none ∧
      Logger.logOutput opts .debug = none ∧
      Logger.logOutput opts .error = some .stderr) ∧
    (opts.quiet = false →
      (Logger.logOutput opts .debug ≠ none ↔ opts.verbose = true)) := by
  obtain ⟨q, v, c, t⟩ := opts
  cases q <;> cases v <;> simp [Logger.logOutput]

/-- Closed instance of the C10 theorem at a concrete quiet logger. -/
theorem logger_quiet_verbose_gating_witness :
    Logger.logOutput ⟨true, true, false, false⟩ .debug = none ∧
    Logger.logOutput ⟨true, true, false, false⟩ .error = some .stderr :=
  ⟨((logger_quiet_verbose_gating ⟨true, true, false, false⟩).1 rfl).2.2.2.2.2.1,
   ((logger_quiet_verbose_gating ⟨true, true, false, false⟩).1 rfl).2.2.2.2.2.2⟩

/-! ## C3: GraphBuilder invariant -/

/-- C3: every edge of the built graph has both endpoints among the supplied
files, the node set is exactly the supplied file set (no phantom nodes), and
dropped-edge count + retained-edge count = total supplied edges. -/
theorem buildGraph_invariant (files : List String) (edges : List ImportEdge) :
    (∀ e ∈ (buildGraph files edges).edges,
        e.source ∈ (buildGraph files edges).nodes ∧
        e.target ∈ (buildGraph files edges).nodes) ∧
    (buildGraph files edges).nodes = files ∧
    (buildGraph files edges).droppedEdges + (buildGraph files edges).edges.length
      = edges.length := by
  refine ⟨?_, rfl, ?_⟩
  · intro e he
    have h := List.of_mem_filter he
    simpa using h
  · exact length_filter_not_add_length_filter _ edges

/-- Closed instance of the C3 theorem at a concrete graph with one dangling
edge: it is dropped and counted. -/
theorem buildGraph_invariant_witness :
    "a" ∈ (buildGraph ["a", "b"] [⟨"a", "b", 1⟩, ⟨"a", "ghost", 1⟩]).nodes ∧
    (buildGraph ["a", "b"] [⟨"a", "b", 1⟩, ⟨"a", "ghost", 1⟩]).droppedEdges
      + (buildGraph ["a", "b"] [⟨"a", "b", 1⟩, ⟨"a", "ghost", 1⟩]).edges.length = 2 :=
  ⟨((buildGraph_invariant ["a", "b"] [⟨"a", "b", 1⟩, ⟨"a", "ghost", 1⟩]).1
      ⟨"a", "b", 1⟩ (by decide)).1,
   (buildGraph_invariant ["a", "b"] [⟨"a", "b", 1⟩, ⟨"a", "ghost", 1⟩]).2.2⟩

/-! ## C2: ContextBudgeter budget invariant -/

/-- One budget step never pushes the running total past the budget. -/
theorem budgetStep_le (budget acc : Nat) (f : FileInfo) (h : acc ≤ budget) :
    (budgetStep budget acc f).2 ≤ budget := by
  unfold budgetStep
  split
  · simpa using ‹acc + f.tokens ≤ budget›
  · split
    · simpa using ‹acc + f.truncatedTokens ≤ budget›
    · simpa using h

/-- The selection walk keeps every running total within the budget and emits
exactly one decision per input file, in input order. -/
theorem selectFiles_le_budget (budget : Nat) (files : List FileInfo) :
    ∀ acc : Nat, acc ≤ budget →
      (∀ x ∈ selectFiles budget files acc, x.2.2 ≤ budget) ∧
      (selectFiles budget files acc).map (·.1) = files := by
  induction files with
  | nil => intro acc _; simp [selectFiles]
  | cons f fs ih =>
    intro acc h
    have hstep := budgetStep_le budget acc f h
    obtain ⟨ih1, ih2⟩ := ih (budgetStep budget acc f).2 hstep
    constructor
    · intro x hx
      simp only [selectFiles, List.mem_cons] at hx
      rcases hx with rfl | hx
      · exact hstep
      · exact ih1 x hx
    · simp [selectFiles, ih2]

/-- C2: the running token total of the budgeter stays within the budget at
every decision; every input file gets exactly one decision, in rank order
with no backtracking; a file is taken whole exactly when it fits the
remaining budget, taken truncated exactly when only its truncated form fits,
and excluded otherwise (leaving the total unchanged). -/
theorem contextBudgeter_never_exceeds_budget (budget : Nat) (files : List FileInfo) :
    (∀ x ∈ contextBudgeter budget files, x.2.2 ≤ budget) ∧
    (contextBudgeter budget files).map (·.1) = files ∧
    (∀ acc f, acc + f.tokens ≤ budget →
        budgetStep budget acc f = (.includedWhole, acc + f.tokens)) ∧
    (∀ acc f, ¬ acc + f.tokens ≤ budget → acc + f.truncatedTokens ≤ budget →
        budgetStep budget acc f = (.truncated, acc + f.truncatedTokens)) ∧
    (∀ acc f, ¬ acc + f.tokens ≤ budget → ¬ acc + f.truncatedTokens ≤ budget →
        budgetStep budget acc f = (.excluded, acc)) := by
  obtain ⟨h1, h2⟩ := selectFiles_le_budget budget files 0 (Nat.zero_le budget)
  refine ⟨h1, h2, ?_, ?_, ?_⟩
  · intro acc f h
    simp [budgetStep, h]
  · intro acc f h h2
    simp [budgetStep, h, h2]
  · intro acc f h h2
    simp [budgetStep, h, h2]

/-- Closed instance of the C2 theorem at the spec's [500, 500, 500] / 700
example: the first file is taken whole, and the third decision's running
total stays within 700. -/
theorem contextBudgeter_never_exceeds_budget_witness :
    budgetStep 700 0 ⟨"a", 0, 0, 0, 500, 100⟩ = (.includedWhole, 0 + 500) ∧
    ∀ x ∈ contextBudgeter 700
        [⟨"a", 0, 0, 0, 500, 100⟩, ⟨"b", 0, 0, 0, 500, 100⟩, ⟨"c", 0, 0, 0, 500, 600⟩],
      x.2.2 ≤ 700 :=
  ⟨(contextBudgeter_never_exceeds_budget 700 []).2.2.1 0 ⟨"a", 0, 0, 0, 500, 100⟩
      (by decide),
   (contextBudgeter_never_exceeds_budget 700
      [⟨"a", 0, 0, 0, 500, 100⟩, ⟨"b", 0, 0, 0, 500, 100⟩, ⟨"c", 0, 0, 0, 500, 600⟩]).1⟩

/-! ## C8: project type detection -/

/-- Stable insertion never produces the empty list. -/
theorem insertByPriority_ne_nil (m : ManifestEntry) (l : List ManifestEntry) :
    insertByPriority m l ≠ [] := by
  cases l with
  | nil => simp [insertByPriority]
  | cons x xs =>
    simp only [insertByPriority]
    split <;> simp

/-- The sort returns the empty list only on the empty list. -/
theorem sortByPriority_eq_nil_iff (l : List ManifestEntry) :
    sortByPriority l = [] ↔ l = [] := by
  cases l with
  | nil => simp [sortByPriority]
  | cons x xs =>
    simp only [sortByPriority]
    constructor
    · intro h; exact absurd h (insertByPriority_ne_nil x (sortByPriority xs))
    · intro h; exact absurd h (by simp)

/-- The head of the stable priority sort is the first element of minimal
priority, in declaration order. -/
theorem sortByPriority_head? (l : List ManifestEntry) :
    (sortByPriority l).head? = firstMinPriority l := by
  induction l with
  | nil => rfl
  | cons x xs ih =>
    simp only [sortByPriority, firstMinPriority]
    cases hs : sortByPriority xs with
    | nil =>
      have hnone : firstMinPriority xs = none := by rw [← ih, hs]; rfl
      rw [hnone]
      simp [insertByPriority]
    | cons y ys =>
      have hsome : firstMinPriority xs = some y := by rw [← ih, hs]; rfl
      rw [hsome]
      simp only [insertByPriority]
      by_cases h : x.priority ≤ y.priority
      · rw [if_pos h, if_neg (by omega)]
        rfl
      · rw [if_neg h, if_pos (by omega)]
        rfl

/-- A dedup of a map cannot be longer than the underlying list. -/
theorem dedup_map_length_le {α β : Type} [DecidableEq β] (f : α → β) (l : List α) :
    ((l.map f).dedup).length ≤ l.length := by
  calc ((l.map f).dedup).length ≤ (l.map f).length :=
        (List.dedup_sublist (l.map f)).length_le
    _ = l.length := List.length_map l f

/-- C8: `detectProjectType` returns the unknown/none/low result exactly when
none of the eleven manifest files exists; otherwise it returns the type and
name of the detected manifest with the smallest priority, resolving priority
ties by `MANIFEST_MAP` declaration order, with confidence medium exactly
when the detected manifests span more than one project type and high
otherwise. -/
theorem detectProjectType_characterized (fe : String → Bool) (g : Bool) :
    ((∀ m ∈ MANIFEST_MAP, fe m.file = false) ↔
      detectProjectType fe g = ⟨.unknown, none, g, .low⟩) ∧
    (∀ p, firstMinPriority (MANIFEST_MAP.filter fun m => fe m.file) = some p →
      detectProjectType fe g =
        ⟨p.type, some p.file, g,
          if 1 < ((MANIFEST_MAP.filter fun m => fe m.file).map (·.type)).dedup.length
          then .medium else .high⟩) := by
  constructor
  · constructor
    · intro h
      have hnil : MANIFEST_MAP.filter (fun m => fe m.file) = [] := by
        rw [List.filter_eq_nil_iff]
        intro m hm
        simp [h m hm]
      simp only [detectProjectType, hnil]
      rfl
    · intro h
      by_contra hne
      push_neg at hne
      obtain ⟨m, hm, hfe⟩ := hne
      have hmem : m ∈ MANIFEST_MAP.filter (fun m => fe m.file) :=
        List.mem_filter.mpr ⟨hm, by simp [hfe]⟩
      have hfil : MANIFEST_MAP.filter (fun m => fe m.file) ≠ [] := by
        intro heq; rw [heq] at hmem; exact absurd hmem (List.not_mem_nil m)
      have hsort : sortByPriority (MANIFEST_MAP.filter fun m => fe m.file) ≠ [] := by
        intro hs
        exact hfil ((sortByPriority_eq_nil_iff _).mp hs)
      obtain ⟨q, qs, hs⟩ := List.exists_cons_of_ne_nil hsort
      simp only [detectProjectType, hs] at h
      exact Option.noConfusion (congrArg (·.manifestFile) h)
  · intro p hp
    have hhead : (sortByPriority (MANIFEST_MAP.filter fun m => fe m.file)).head?
        = some p := by rw [sortByPriority_head?, hp]
    have hiff :
        ((MANIFEST_MAP.filter fun m => fe m.file).length > 1 ∧
          1 < ((MANIFEST_MAP.filter fun m => fe m.file).map (·.type)).dedup.length) ↔
        1 < ((MANIFEST_MAP.filter fun m => fe m.file).map (·.type)).dedup.length := by
      -- the dedup bound makes the length conjunct redundant
      constructor
      · exact And.right
      · intro hd
        exact ⟨Nat.lt_of_lt_of_le hd (dedup_map_length_le _ _), hd⟩
    cases hs : sortByPriority (MANIFEST_MAP.filter fun m => fe m.file) with
    | nil => rw [hs] at hhead; exact Option.noConfusion hhead
    | cons q qs =>
      rw [hs] at hhead
      have hq : q = p := by simpa using hhead
      subst hq
      simp only [detectProjectType, hs]
      by_cases hd :
          1 < ((MANIFEST_MAP.filter fun m => fe m.file).map (·.type)).dedup.length
      · rw [if_pos (by exact hiff.mpr hd), if_pos hd]
      · rw [if_neg (by intro hc; exact hd (hiff.mp hc)), if_neg hd]

/-- Closed instance of the C8 theorem: a root containing the three Python
manifests is detected as Python via `pyproject.toml` with high confidence. -/
theorem detectProjectType_characterized_witness :
    detectProjectType
        (fun f => ["pyproject.toml", "setup.py", "requirements.txt"].contains f) true
      = ⟨.python, some "pyproject.toml", true, .high⟩ := by
  have h := (detectProjectType_characterized
      (fun f => ["pyproject.toml", "setup.py", "requirements.txt"].contains f) true).2
      ⟨"pyproject.toml", .python, 1⟩ (by decide)
  rw [h]
  decide

/-! ## C9: gitignore idempotence — split lemmas -/

/-- A split always has at least one segment. -/
theorem splitOnChar_ne_nil (sep : Char) (l : List Char) : splitOnChar sep l ≠ [] := by
  cases l with
  | nil => simp [splitOnChar]
  | cons c cs =>
    simp only [splitOnChar]
    split
    · simp
    · split <;> simp

/-- Unfolding equation for `splitOnChar` on a cons cell. -/
theorem splitOnChar_cons (sep c : Char) (cs : List Char) :
    splitOnChar sep (c :: cs)
      = match splitOnChar sep cs with
        | [] => [[]]
        | l :: ls => if c = sep then [] :: l :: ls else (c :: l) :: ls := rfl

/-- Reduced unfolding equation for `splitOnChar` when the split of the tail
is already known in cons form. -/
theorem splitOnChar_cons_eq (sep c : Char) (cs l : List Char) (ls : List (List Char))
    (h : splitOnChar sep cs = l :: ls) :
    splitOnChar sep (c :: cs) = if c = sep then [] :: l :: ls else (c :: l) :: ls := by
  rw [splitOnChar_cons, h]

/-- Splitting a separator-free segment followed by a separator peels off that
segment whole. -/
theorem splitOnChar_append_sep (sep : Char) (a b : List Char) (ha : sep ∉ a) :
    splitOnChar sep (a ++ sep :: b) = a :: splitOnChar sep b := by
  induction a with
  | nil =>
    rw [List.nil_append]
    cases h : splitOnChar sep b with
    | nil => exact absurd h (splitOnChar_ne_nil sep b)
    | cons l ls => rw [splitOnChar_cons_eq sep sep b l ls h, if_pos rfl]
  | cons c cs ih =>
    have hc : ¬ c = sep := fun h => ha (h ▸ List.mem_cons_self c cs)
    have ha2 : sep ∉ cs := fun h => ha (List.mem_cons_of_mem c h)
    rw [List.cons_append, splitOnChar_cons_eq sep c _ _ _ (ih ha2), if_neg hc]

/-- A list ending in the separator splits into at least two segments. -/
theorem two_le_splitOnChar_length (sep : Char) :
    ∀ l : List Char, l.getLast? = some sep → 2 ≤ (splitOnChar sep l).length
  | [] => by simp
  | [c] => by
    intro h
    simp only [List.getLast?_singleton, Option.some.injEq] at h
    subst h
    simp [splitOnChar]
  | c :: d :: ds => by
    intro h
    rw [List.getLast?_cons_cons] at h
    have ih := two_le_splitOnChar_length sep (d :: ds) h
    cases hs : splitOnChar sep (d :: ds) with
    | nil => exact absurd hs (splitOnChar_ne_nil sep _)
    | cons a as =>
      rw [hs] at ih
      simp only [List.length_cons] at ih
      rw [splitOnChar_cons_eq sep c (d :: ds) a as hs]
      by_cases hceq : c = sep
      · rw [if_pos hceq]
        simp only [List.length_cons]
        omega
      · rw [if_neg hceq]
        simp only [List.length_cons]
        omega

/-- Splitting after a block that is empty or ends in the separator: the
block's trailing empty segment is replaced by the split of the remainder. -/
theorem splitOnChar_append_of_last (sep : Char) :
    ∀ l t : List Char, (l = [] ∨ l.getLast? = some sep) →
      splitOnChar sep (l ++ t) = (splitOnChar sep l).dropLast ++ splitOnChar sep t
  | [], t, _ => by simp [splitOnChar]
  | c :: cs, t, h => by
    have hlast : (c :: cs).getLast? = some sep := h.resolve_left (by simp)
    by_cases hcs : cs = []
    · subst hcs
      have hc : c = sep := by simpa using hlast
      rw [List.singleton_append]
      cases hs : splitOnChar sep t with
      | nil => exact absurd hs (splitOnChar_ne_nil sep t)
      | cons a as =>
        rw [splitOnChar_cons_eq sep c t a as hs, if_pos hc]
        have hone : splitOnChar sep [c] = [[], []] := by
          rw [splitOnChar_cons_eq sep c [] [] [] rfl, if_pos hc]
        rw [hone]
        simp
    · obtain ⟨d, ds, rfl⟩ := List.exists_cons_of_ne_nil hcs
      rw [List.getLast?_cons_cons] at hlast
      have ih := splitOnChar_append_of_last sep (d :: ds) t (Or.inr hlast)
      have h2 := two_le_splitOnChar_length sep (d :: ds) hlast
      cases hs : splitOnChar sep (d :: ds) with
      | nil => exact absurd hs (splitOnChar_ne_nil sep _)
      | cons a as =>
        rw [hs] at h2
        simp only [List.length_cons] at h2
        cases as with
        | nil => simp at h2
        | cons b bs =>
          have hmidL : splitOnChar sep (d :: ds ++ t)
              = a :: ((b :: bs).dropLast ++ splitOnChar sep t) := by
            rw [ih, hs]
            rfl
          rw [List.cons_append, splitOnChar_cons_eq sep c _ _ _ hmidL,
              splitOnChar_cons_eq sep c _ _ _ hs]
          by_cases hceq : c = sep
          · rw [if_pos hceq, if_pos hceq]
            rfl
          · rw [if_neg hceq, if_neg hceq]
            rfl

/-- A separator-free segment written between a separator-terminated (or
empty) block and a final separator appears whole among the split segments. -/
theorem mem_splitOnChar_append (sep : Char) (pre e : List Char)
    (hpre : pre = [] ∨ pre.getLast? = some sep) (he : sep ∉ e) :
    e ∈ splitOnChar sep (pre ++ e ++ [sep]) := by
  have h1 : splitOnChar sep (e ++ sep :: []) = e :: splitOnChar sep [] :=
    splitOnChar_append_sep sep e [] he
  rw [List.append_assoc, splitOnChar_append_of_last sep pre (e ++ [sep]) hpre]
  simp only [List.singleton_append] at h1 ⊢
  rw [h1]
  exact List.mem_append_right _ (List.mem_cons_self e _)

/-- On the miss path `addToGitignore` returns `true` and writes back the old
content, terminated properly, followed by the entry and a final newline. -/
theorem addToGitignore_content_shape (content : Option (List Char)) (entry : List Char)
    (comment : Option (List Char)) (h : isInGitignore content entry = false) :
    ∃ pre, (pre = [] ∨ pre.getLast? = some '\n') ∧
      (addToGitignore content entry comment).2 = some (pre ++ entry ++ ['\n']) ∧
      (addToGitignore content entry comment).1 = true := by
  cases comment with
  | some cm =>
    simp only [addToGitignore, h, Bool.false_eq_true, if_false]
    by_cases hcm : cm = []
    · rw [if_neg (fun hc => hc hcm)]
      by_cases hc1 : (if content.getD [] ≠ [] ∧ (content.getD []).getLast? ≠ some '\n'
          then content.getD [] ++ ['\n'] else content.getD []) = []
      · refine ⟨_, ?_, rfl, trivial⟩
        rw [if_neg (fun hcon => hcon hc1)]
        exact Or.inl hc1
      · refine ⟨_, ?_, rfl, trivial⟩
        rw [if_pos hc1]
        exact Or.inr (List.getLast?_concat _)
    · rw [if_pos hcm]
      refine ⟨_, Or.inr ?_, rfl, trivial⟩
      exact List.getLast?_concat _
  | none =>
    simp only [addToGitignore, h, Bool.false_eq_true, if_false]
    by_cases hc1 : (if content.getD [] ≠ [] ∧ (content.getD []).getLast? ≠ some '\n'
        then content.getD [] ++ ['\n'] else content.getD []) = []
    · refine ⟨_, ?_, rfl, trivial⟩
      rw [if_neg (fun hcon => hcon hc1)]
      exact Or.inl hc1
    · refine ⟨_, ?_, rfl, trivial⟩
      rw [if_pos hc1]
      exact Or.inr (List.getLast?_concat _)

/-- After a successful `addToGitignore`, a well-formed entry (trim-stable,
nonempty, not a comment, newline-free) is found by `isInGitignore`. -/
theorem isInGitignore_after_add (content : Option (List Char)) (entry : List Char)
    (comment : Option (List Char))
    (ht : trimL entry = entry) (hne : entry ≠ []) (hh : entry.head? ≠ some '#')
    (hnl : '\n' ∉ entry) (h : isInGitignore content entry = false) :
    isInGitignore (addToGitignore content entry comment).2 entry = true := by
  obtain ⟨pre, hpre, hc, _⟩ := addToGitignore_content_shape content entry comment h
  rw [hc]
  have hcne : ¬ pre ++ entry ++ ['\n'] = [] := by
    intro habs
    have hlen := congrArg List.length habs
    simp at hlen
  simp only [isInGitignore, if_neg hcne]
  apply List.any_eq_true.mpr
  refine ⟨entry, ?_, ?_⟩
  · exact mem_splitOnChar_append '\n' pre entry hpre hnl
  · simp [ht, hne, hh]

/-- C9 (amended): when the entry is already present by the code's
comparison — each `.gitignore` line is trimmed, comment and blank lines are
skipped, and both sides are compared after stripping leading and trailing
slashes — `addToGitignore` returns `false` and leaves the content unchanged;
otherwise it appends the entry on its own line and returns `true`.  The
second of two identical calls is a no-op returning `false` provided the
entry has no leading or trailing whitespace, is nonempty, does not start
with `#`, and contains no newline. -/
theorem addToGitignore_amended (content : Option (List Char)) (entry : List Char)
    (comment : Option (List Char)) :
    (isInGitignore content entry = true →
      addToGitignore content entry comment = (false, content)) ∧
    (isInGitignore content entry = false →
      (addToGitignore content entry comment).1 = true ∧
      ∃ pre, (addToGitignore content entry comment).2 = some (pre ++ entry ++ ['\n'])) ∧
    (trimL entry = entry → entry ≠ [] → entry.head? ≠ some '#' → '\n' ∉ entry →
      ∀ cm2, addToGitignore (addToGitignore content entry comment).2 entry cm2
        = (false, (addToGitignore content entry comment).2)) := by
  refine ⟨?_, ?_, ?_⟩
  · intro h
    simp [addToGitignore, h]
  · intro h
    obtain ⟨pre, _, hc, hb⟩ := addToGitignore_content_shape content entry comment h
    exact ⟨hb, pre, hc⟩
  · intro ht hne hh hnl cm2
    have hret : ∀ ct : Option (List Char), isInGitignore ct entry = true →
        addToGitignore ct entry cm2 = (false, ct) := by
      intro ct hct
      simp [addToGitignore, hct]
    cases h : isInGitignore content entry with
    | true =>
      have h1 : addToGitignore content entry comment = (false, content) := by
        simp [addToGitignore, h]
      rw [h1]
      exact hret content h
    | false =>
      exact hret _ (isInGitignore_after_add content entry comment ht hne hh hnl h)

/-- Closed instance of the amended C9 theorem: adding `x` twice makes the
second call a no-op returning `false`. -/
theorem addToGitignore_amended_witness :
    addToGitignore (addToGitignore none ['x'] none).2 ['x'] none
      = (false, (addToGitignore none ['x'] none).2) :=
  (addToGitignore_amended none ['x'] none).2.2 (by decide) (by decide) (by decide)
    (by decide) none

/-- C9 counterexample: with entry `#a` — a line the membership check always
skips as a comment — the second of two identical `addToGitignore` calls is
not a no-op: it returns `true` again and appends a second copy, where the
claim says it returns `false` and leaves the file unchanged. -/
theorem addToGitignore_comment_entry_not_idempotent :
    (addToGitignore (addToGitignore none ['#', 'a'] none).2 ['#', 'a'] none).1 = true ∧
    (addToGitignore (addToGitignore none ['#', 'a'] none).2 ['#', 'a'] none).2
      ≠ (addToGitignore none ['#', 'a'] none).2 := by
  decide


/-! ## C6: MetricsEngine iterative importance -/

/-- Looking up a node in a map-built association list gives the mapped
value. -/
theorem lookupImp_map (f : String → ℚ) (l : List String) (v : String) (hv : v ∈ l) :
    lookupImp (l.map fun u => (u, f u)) v = f v := by
  induction l with
  | nil => cases hv
  | cons a l ih =>
    by_cases hav : a = v
    · subst hav
      simp [lookupImp, List.find?]
    · have hb : (a == v) = false := by simp [hav]
      have hv2 : v ∈ l := by
        rcases List.mem_cons.mp hv with h1 | h1
        · exact absurd h1.symm hav
        · exact h1
      have hrec := ih hv2
      simpa [lookupImp, List.find?, hb] using hrec

/-- The iteration loop runs to the cap when no step's change is below
epsilon. -/
theorem pageRankLoop_cap (g : Graph) (eps : ℚ) :
    ∀ (fuel : Nat) (m : ImpMap),
      (∀ k < fuel,
        ¬ prDelta g ((pageRankStep g)^[k + 1] m) ((pageRankStep g)^[k] m) < eps) →
      pageRankLoop g eps fuel m = (pageRankStep g)^[fuel] m
  | 0, m, _ => rfl
  | fuel + 1, m, h => by
    have h0 : ¬ prDelta g (pageRankStep g m) m < eps := by
      simpa using h 0 (Nat.succ_pos fuel)
    have hrec := pageRankLoop_cap g eps fuel (pageRankStep g m) (fun k hk => by
      have hk2 := h (k + 1) (Nat.succ_lt_succ hk)
      rw [Function.iterate_succ_apply (pageRankStep g) (k + 1) m,
          Function.iterate_succ_apply (pageRankStep g) k m] at hk2
      exact hk2)
    show (if prDelta g (pageRankStep g m) m < eps then pageRankStep g m
        else pageRankLoop g eps fuel (pageRankStep g m)) = (pageRankStep g)^[fuel + 1] m
    rw [if_neg h0, hrec, ← Function.iterate_succ_apply]

/-- The loop stops as soon as the change falls below epsilon. -/
theorem pageRankLoop_stop (g : Graph) (eps : ℚ) (fuel : Nat) (m : ImpMap)
    (h : prDelta g (pageRankStep g m) m < eps) :
    pageRankLoop g eps (fuel + 1) m = pageRankStep g m := by
  show (if prDelta g (pageRankStep g m) m < eps then pageRankStep g m
      else pageRankLoop g eps fuel (pageRankStep g m)) = pageRankStep g m
  rw [if_pos h]

/-- C6: the iterative importance starts every node at 1/N; one iteration
applies `importance(v) = (1-d) + d * (Σ importance(u)/outDegree(u) +
dangling/N)` with d = 0.85 and uniform dangling-mass redistribution; the
loop runs at most 20 iterations, stopping early when the score change falls
below epsilon; and when the threshold is never reached within the cap the
values at the cap are still returned rather than failing. -/
theorem pageRank_iteration_spec (g : Graph) (eps : ℚ) :
    (∀ v ∈ g.nodes, lookupImp (initImp g) v = 1 / (g.nodes.length : ℚ)) ∧
    (∀ (m : ImpMap), ∀ v ∈ g.nodes,
      lookupImp (pageRankStep g m) v
        = (1 - damping) + damping *
            (((g.radj v).map fun u => lookupImp m u / (g.outDeg u : ℚ)).sum
              + danglingMass g m / (g.nodes.length : ℚ))) ∧
    (pageRank g eps = pageRankLoop g eps 20 (initImp g)) ∧
    (prDelta g (pageRankStep g (initImp g)) (initImp g) < eps →
      pageRank g eps = pageRankStep g (initImp g)) ∧
    ((∀ k < 20, ¬ prDelta g ((pageRankStep g)^[k + 1] (initImp g))
        ((pageRankStep g)^[k] (initImp g)) < eps) →
      pageRank g eps = (pageRankStep g)^[20] (initImp g)) := by
  refine ⟨?_, ?_, rfl, ?_, ?_⟩
  · intro v hv
    exact lookupImp_map (fun _ => 1 / (g.nodes.length : ℚ)) g.nodes v hv
  · intro m v hv
    exact lookupImp_map _ g.nodes v hv
  · intro hlt
    exact pageRankLoop_stop g eps 19 (initImp g) hlt
  · intro h
    exact pageRankLoop_cap g eps 20 (initImp g) h

/-- Closed instance of the C6 theorem: one isolated node with epsilon 0 —
the change never drops strictly below 0, so the loop returns the values at
the 20-iteration cap. -/
theorem pageRank_iteration_spec_witness :
    pageRank (buildGraph ["A"] []) 0
      = (pageRankStep (buildGraph ["A"] []))^[20] (initImp (buildGraph ["A"] [])) :=
  (pageRank_iteration_spec (buildGraph ["A"] []) 0).2.2.2.2 (by decide)

/-! ## C4: community partition invariant -/

/-- C4: at the end of partitioning, the communities cover every node, contain
only nodes, and are pairwise disjoint — they partition the node set. -/
theorem communities_partition (g : Graph) :
    (∀ v ∈ g.nodes, ∃ c ∈ communities g, v ∈ c.2) ∧
    (∀ c ∈ communities g, ∀ v ∈ c.2, v ∈ g.nodes) ∧
    (∀ c1 ∈ communities g, ∀ c2 ∈ communities g, c1 ≠ c2 →
      ∀ v ∈ c1.2, v ∉ c2.2) := by
  simp only [communities, communitiesOf]
  refine ⟨?_, ?_, ?_⟩
  · intro v hv
    refine ⟨(partitionAssign g v,
        g.nodes.filter fun w => partitionAssign g w == partitionAssign g v), ?_, ?_⟩
    · exact List.mem_map_of_mem _
        (List.mem_dedup.mpr (List.mem_map_of_mem _ hv))
    · exact List.mem_filter.mpr ⟨hv, by simp⟩
  · intro c hc v hv
    obtain ⟨i, hi, rfl⟩ := List.mem_map.mp hc
    exact (List.mem_filter.mp hv).1
  · intro c1 hc1 c2 hc2 hne v hv1 hv2
    obtain ⟨i, hi, rfl⟩ := List.mem_map.mp hc1
    obtain ⟨j, hj, rfl⟩ := List.mem_map.mp hc2
    have h1 := (List.mem_filter.mp hv1).2
    have h2 := (List.mem_filter.mp hv2).2
    simp only [beq_iff_eq] at h1 h2
    exact hne (by rw [← h1, ← h2])

/-- Closed instance of the C4 theorem: in a one-file graph the file lies in
one of the final communities. -/
theorem communities_partition_witness :
    ∃ c ∈ communities (buildGraph ["a"] []), "a" ∈ c.2 :=
  (communities_partition (buildGraph ["a"] [])).1 "a" (by decide)

/-! ## C5: cycle detector -/

/-- Reachability is reflexive at any fuel. -/
theorem reachesN_refl (g : Graph) (k : Nat) (u : String) : reachesN g k u u = true := by
  cases k <;> simp [reachesN]

/-- One extra unit of fuel preserves reachability. -/
theorem reachesN_succ_of (g : Graph) :
    ∀ (k : Nat) (u v : String), reachesN g k u v = true → reachesN g (k + 1) u v = true
  | 0, u, v, h => by
    simp only [reachesN] at h
    simp [reachesN, h]
  | n + 1, u, v, h => by
    rw [show reachesN g (n + 1) u v
        = ((u == v) || (g.adj u).any fun w => reachesN g n w v) from rfl,
      Bool.or_eq_true] at h
    show ((u == v) || (g.adj u).any fun w => reachesN g (n + 1) w v) = true
    rw [Bool.or_eq_true]
    rcases h with h1 | h1
    · exact Or.inl h1
    · rw [List.any_eq_true] at h1
      obtain ⟨w, hw, hr⟩ := h1
      refine Or.inr ?_
      rw [List.any_eq_true]
      exact ⟨w, hw, reachesN_succ_of g n w v hr⟩

/-- Reachability is monotone in the fuel. -/
theorem reachesN_mono (g : Graph) (k j : Nat) (u v : String)
    (h : reachesN g k u v = true) : reachesN g (k + j) u v = true := by
  induction j with
  | zero => exact h
  | succ n ih => exact reachesN_succ_of g (k + n) u v ih

/-- Walks compose, with fuels adding. -/
theorem reachesN_trans (g : Graph) :
    ∀ (a b : Nat) (u v w : String), reachesN g a u v = true →
      reachesN g b v w = true → reachesN g (a + b) u w = true
  | 0, b, u, v, w, h1, h2 => by
    simp only [reachesN, beq_iff_eq] at h1
    subst h1
    simpa using h2
  | n + 1, b, u, v, w, h1, h2 => by
    simp only [reachesN, Bool.or_eq_true, List.any_eq_true] at h1
    rcases h1 with h1 | ⟨x, hx, hr⟩
    · simp only [beq_iff_eq] at h1
      subst h1
      have hm := reachesN_mono g b (n + 1) u w h2
      rwa [Nat.add_comm] at hm
    · have hxw := reachesN_trans g n b x v w hr h2
      rw [Nat.add_right_comm]
      simp only [reachesN, Bool.or_eq_true, List.any_eq_true]
      exact Or.inr ⟨x, hx, hxw⟩

/-- An acyclic graph: no edge out of a node starts a walk back to it,
whatever the fuel. -/
def Acyclic (g : Graph) : Prop :=
  ∀ v : String, ∀ w ∈ g.adj v, ∀ k : Nat, reachesN g k w v ≠ true

/-- The representative fold never loses accumulator elements. -/
theorem reps_fold_subset (g : Graph) (l : List String) :
    ∀ acc : List String,
      acc ⊆ l.foldl
        (fun a v => if a.any (fun r => mutualReach g r v) then a else a ++ [v]) acc := by
  induction l with
  | nil => intro acc; simp
  | cons x l ih =>
    intro acc
    rw [List.foldl_cons]
    refine List.Subset.trans ?_ (ih _)
    intro y hy
    split
    · exact hy
    · exact List.mem_append_left _ hy

/-- The representative fold only collects traversed nodes (and the
accumulator). -/
theorem reps_fold_sources (g : Graph) (l : List String) :
    ∀ acc : List String,
      l.foldl (fun a v => if a.any (fun r => mutualReach g r v) then a else a ++ [v]) acc
        ⊆ acc ++ l := by
  induction l with
  | nil => intro acc; simp
  | cons x l ih =>
    intro acc
    rw [List.foldl_cons]
    refine List.Subset.trans (ih _) ?_
    intro y hy
    rcases List.mem_append.mp hy with hy | hy
    · split at hy
      · exact List.mem_append_left _ hy
      · rcases List.mem_append.mp hy with hy | hy
        · exact List.mem_append_left _ hy
        · simp only [List.mem_singleton] at hy
          subst hy
          exact List.mem_append_right _ (List.mem_cons_self _ _)
    · exact List.mem_append_right _ (List.mem_cons_of_mem _ hy)

/-- Every traversed node gets a representative that mutually reaches it. -/
theorem reps_fold_covers (g : Graph) (l : List String) :
    ∀ acc : List String, ∀ v ∈ l,
      ∃ r ∈ l.foldl
          (fun a u => if a.any (fun s => mutualReach g s u) then a else a ++ [u]) acc,
        mutualReach g r v = true := by
  induction l with
  | nil => intro acc v hv; cases hv
  | cons x l ih =>
    intro acc v hv
    rw [List.foldl_cons]
    rcases List.mem_cons.mp hv with rfl | hv2
    · by_cases hcond : acc.any (fun s => mutualReach g s v) = true
      · obtain ⟨r, hr, hm⟩ := List.any_eq_true.mp hcond
        rw [if_pos hcond]
        exact ⟨r, reps_fold_subset g l acc hr, hm⟩
      · rw [if_neg hcond]
        refine ⟨v, reps_fold_subset g l _
          (List.mem_append_right _ (List.mem_singleton_self v)), ?_⟩
        simp [mutualReach, reaches, reachesN_refl]
    · exact ih _ v hv2

/-- A list with two distinct members has length at least 2. -/
theorem two_le_length_of_two_mem {α : Type} {l : List α} {a b : α}
    (ha : a ∈ l) (hb : b ∈ l) (hne : a ≠ b) : 2 ≤ l.length := by
  cases l with
  | nil => cases ha
  | cons x xs =>
    cases xs with
    | nil =>
      simp only [List.mem_singleton] at ha hb
      exact absurd (ha.trans hb.symm) hne
    | cons y ys =>
      simp only [List.length_cons]
      omega

/-- C5: every reported cycle group is the full mutual-reachability class of
one of the nodes, its members pairwise reach each other, and it has size at
least 2 or is a singleton with an explicit self-edge; conversely every node
mutually reachable with some other node appears in a reported group; the
three-file cycle A→B→C→A yields exactly the single group [A, B, C]; and any
acyclic graph (with distinct node identities) yields no cycle groups. -/
theorem cycleGroups_are_nontrivial_sccs :
    (∀ (g : Graph), ∀ G ∈ cycleGroups g,
        (∃ r ∈ g.nodes, G = sccOf g r) ∧
        (∀ u ∈ G, ∀ w ∈ G, ∃ k, reachesN g k u w = true) ∧
        (2 ≤ G.length ∨ ∃ v, G = [v] ∧ selfEdge g v = true)) ∧
    (∀ (g : Graph), ∀ v ∈ g.nodes,
        (∃ u ∈ g.nodes, u ≠ v ∧ mutualReach g v u = true) →
        ∃ G ∈ cycleGroups g, v ∈ G) ∧
    (cycleGroups (buildGraph ["A", "B", "C"]
        [⟨"A", "B", 1⟩, ⟨"B", "C", 1⟩, ⟨"C", "A", 1⟩]) = [["A", "B", "C"]]) ∧
    (∀ (g : Graph), g.nodes.Nodup → Acyclic g → cycleGroups g = []) := by
  refine ⟨?_, ?_, by decide, ?_⟩
  · intro g G hG
    obtain ⟨hGmap, hpred⟩ := List.mem_filter.mp hG
    obtain ⟨r, hr, rfl⟩ := List.mem_map.mp hGmap
    have hrnodes : r ∈ g.nodes := by
      have hsub := reps_fold_sources g g.nodes [] hr
      simpa using hsub
    refine ⟨⟨r, hrnodes, rfl⟩, ?_, ?_⟩
    · intro u hu w hw
      have h1 := (List.mem_filter.mp hu).2
      have h2 := (List.mem_filter.mp hw).2
      simp only [mutualReach, Bool.and_eq_true] at h1 h2
      exact ⟨g.nodes.length + g.nodes.length,
        reachesN_trans g _ _ u r w h1.2 h2.1⟩
    · rw [Bool.or_eq_true] at hpred
      rcases hpred with h | h
      · exact Or.inl (by simpa using h)
      · rw [Bool.and_eq_true] at h
        obtain ⟨h1, h2⟩ := h
        have hlen1 : (sccOf g r).length = 1 := by simpa using h1
        obtain ⟨v, hveq⟩ := List.length_eq_one.mp hlen1
        refine Or.inr ⟨v, hveq, ?_⟩
        obtain ⟨x, hx, hself⟩ := List.any_eq_true.mp h2
        rw [hveq] at hx
        simp only [List.mem_singleton] at hx
        subst hx
        exact hself
  · rintro g v hv ⟨u, hu, hne, hmv⟩
    obtain ⟨r, hrreps, hrm⟩ := reps_fold_covers g g.nodes [] v hv
    have hv_mem : v ∈ sccOf g r := List.mem_filter.mpr ⟨hv, hrm⟩
    refine ⟨sccOf g r, List.mem_filter.mpr ⟨List.mem_map_of_mem _ hrreps, ?_⟩, hv_mem⟩
    have hlen : 2 ≤ (sccOf g r).length := by
      by_cases hrv : r = v
      · subst hrv
        have hu_mem : u ∈ sccOf g r := List.mem_filter.mpr ⟨hu, by
          simp only [mutualReach, Bool.and_eq_true] at hmv ⊢
          exact ⟨hmv.1, hmv.2⟩⟩
        exact two_le_length_of_two_mem hu_mem hv_mem hne
      · have hrnodes : r ∈ g.nodes := by
          have hsub := reps_fold_sources g g.nodes [] hrreps
          simpa using hsub
        have hr_mem : r ∈ sccOf g r := List.mem_filter.mpr ⟨hrnodes, by
          simp [mutualReach, reaches, reachesN_refl]⟩
        exact two_le_length_of_two_mem hr_mem hv_mem hrv
    simp only [Bool.or_eq_true, decide_eq_true_eq]
    exact Or.inl hlen
  · intro g hnd hacyc
    simp only [cycleGroups]
    rw [List.filter_eq_nil_iff]
    intro G hG
    obtain ⟨r, hr, rfl⟩ := List.mem_map.mp hG
    intro hpred
    rw [Bool.or_eq_true] at hpred
    rcases hpred with hlen | hsingle
    · have hlen2 : 2 ≤ (sccOf g r).length := by simpa using hlen
      obtain ⟨u, w, rest, hsc⟩ : ∃ u w rest, sccOf g r = u :: w :: rest := by
        rcases hsc : sccOf g r with _ | ⟨u, tl⟩
        · rw [hsc] at hlen2
          simp at hlen2
        · rcases tl with _ | ⟨w, rest⟩
          · rw [hsc] at hlen2
            simp at hlen2
          · exact ⟨u, w, rest, rfl⟩
      have hnd2 : (sccOf g r).Nodup := List.Nodup.filter _ hnd
      rw [hsc] at hnd2
      have hne : u ≠ w := by
        have hcons := List.nodup_cons.mp hnd2
        exact fun he => hcons.1 (he ▸ List.mem_cons_self w rest)
      have hu_mem : u ∈ sccOf g r := by
        rw [hsc]
        exact List.mem_cons_self _ _
      have hw_mem : w ∈ sccOf g r := by
        rw [hsc]
        exact List.mem_cons_of_mem _ (List.mem_cons_self _ _)
      have h1 := (List.mem_filter.mp hu_mem).2
      have h2 := (List.mem_filter.mp hw_mem).2
      simp only [mutualReach, Bool.and_eq_true] at h1 h2
      have huw : reachesN g (g.nodes.length + g.nodes.length) u w = true :=
        reachesN_trans g _ _ u r w h1.2 h2.1
      have hwu : reachesN g (g.nodes.length + g.nodes.length) w u = true :=
        reachesN_trans g _ _ w r u h2.2 h1.1
      rcases hnn : g.nodes.length + g.nodes.length with _ | k
      · rw [hnn] at huw
        simp only [reachesN, beq_iff_eq] at huw
        exact hne huw
      · rw [hnn] at huw
        simp only [reachesN, Bool.or_eq_true, List.any_eq_true, beq_iff_eq] at huw
        rcases huw with he | ⟨x, hx, hr2⟩
        · exact hne he
        · rw [hnn] at hwu
          exact hacyc u x hx (k + (Nat.succ k))
            (reachesN_trans g k (Nat.succ k) x w u hr2 hwu)
    · rw [Bool.and_eq_true] at hsingle
      obtain ⟨h1, h2⟩ := hsingle
      obtain ⟨x, hx, hself⟩ := List.any_eq_true.mp h2
      have hmem : x ∈ g.adj x := by
        simpa [selfEdge] using hself
      exact hacyc x x hmem 0 (by simp [reachesN])

/-- Closed instance of the C5 theorem: in the two-file mutual import A↔B,
file A appears in a reported cycle group. -/
theorem cycleGroups_are_nontrivial_sccs_witness :
    ∃ G ∈ cycleGroups (buildGraph ["A", "B"] [⟨"A", "B", 1⟩, ⟨"B", "A", 1⟩]), "A" ∈ G :=
  cycleGroups_are_nontrivial_sccs.2.1
    (buildGraph ["A", "B"] [⟨"A", "B", 1⟩, ⟨"B", "A", 1⟩]) "A" (by decide)
    ⟨"B", by decide, by decide, by decide⟩

/-! ## C7: significance scoring example -/

/-- C7: in a two-file `src/models/` scenario, `user.schema.ts` (one exported
interface) receives name score 30, path score 25 and a strictly positive
structure score, and its total significance strictly exceeds that of the
neighbouring `index.ts` with no exports. -/
theorem significance_schema_example :
    (scoreFile (buildGraph ["src/models/user.schema.ts", "src/models/index.ts"] [])
        (pageRank (buildGraph ["src/models/user.schema.ts", "src/models/index.ts"] [])
          defaultEps)
        ⟨"src/models/user.schema.ts", 0, 1, 0, 100, 10⟩).nameS = 30 ∧
    (scoreFile (buildGraph ["src/models/user.schema.ts", "src/models/index.ts"] [])
        (pageRank (buildGraph ["src/models/user.schema.ts", "src/models/index.ts"] [])
          defaultEps)
        ⟨"src/models/user.schema.ts", 0, 1, 0, 100, 10⟩).pathS = 25 ∧
    0 < (scoreFile (buildGraph ["src/models/user.schema.ts", "src/models/index.ts"] [])
        (pageRank (buildGraph ["src/models/user.schema.ts", "src/models/index.ts"] [])
          defaultEps)
        ⟨"src/models/user.schema.ts", 0, 1, 0, 100, 10⟩).structS ∧
    (scoreFile (buildGraph ["src/models/user.schema.ts", "src/models/index.ts"] [])
        (pageRank (buildGraph ["src/models/user.schema.ts", "src/models/index.ts"] [])
          defaultEps)
        ⟨"src/models/index.ts", 0, 0, 0, 100, 10⟩).total
      < (scoreFile (buildGraph ["src/models/user.schema.ts", "src/models/index.ts"] [])
        (pageRank (buildGraph ["src/models/user.schema.ts", "src/models/index.ts"] [])
          defaultEps)
        ⟨"src/models/user.schema.ts", 0, 1, 0, 100, 10⟩).total := by
  set_option maxRecDepth 40000 in decide

/-! ## C1: pipeline determinism -/

/-- C1: the analysis pipeline is a pure function of its input — two runs on
equal inputs produce identical AnalysisResult values: the same graph,
per-node metrics, cycle groups, community partition, significance scores
with ranks, and budget selection, element for element and in the same
order. -/
theorem analyze_pure_deterministic (i j : AnalysisInput) (h : i = j) :
    analyze i = analyze j ∧
    (analyze i).scores = (analyze j).scores ∧
    (analyze i).selection = (analyze j).selection ∧
    (analyze i).cycles = (analyze j).cycles ∧
    (analyze i).communityList = (analyze j).communityList ∧
    (analyze i).metrics = (analyze j).metrics := by
  subst h
  exact ⟨rfl, rfl, rfl, rfl, rfl, rfl⟩

/-- Closed instance of the C1 theorem: running the pipeline twice on one
concrete input yields the same result object. -/
theorem analyze_pure_deterministic_witness :
    analyze ⟨[⟨"a", 1, 0, 0, 10, 5⟩], [⟨"a", "a", 1⟩], 100⟩
      = analyze ⟨[⟨"a", 1, 0, 0, 10, 5⟩], [⟨"a", "a", 1⟩], 100⟩ :=
  (analyze_pure_deterministic _ _ rfl).1

end SpecGen
